import Mathlib

/-!
Verification of the RSA public-exponent parser/validator
(`src/rsa/public/exponent.rs`).

The embedding models bytes as natural numbers below 256 and the 64-bit
accumulator as a natural number reduced modulo `2 ^ 64` at each shift,
exactly where the Rust `u64` arithmetic could wrap.
-/

/-- The rejection kinds of `error::KeyRejected` that `Exponent::from_be_bytes`
can produce: `too_small`, `too_large`, `invalid_encoding`, `invalid_component`. -/
inductive KeyRejected where
  | too_small
  | too_large
  | invalid_encoding
  | invalid_component
deriving DecidableEq, Repr

deriving instance DecidableEq for Except

/-- The exponent `e` of the RSA public key: a nonzero 64-bit value
(`struct Exponent(NonZeroU64)`). The nonzero invariant is carried in the type,
as `NonZeroU64` does in the source. -/
structure Exponent where
  val : Nat
  pos : 0 < val

instance : DecidableEq Exponent := fun a b =>
  decidable_of_iff (a.val = b.val) (by cases a; cases b; simp)

namespace Exponent

/-- `Exponent::_3`. -/
def _3 : Exponent := ⟨3, by decide⟩

/-- `Exponent::_65537`. -/
def _65537 : Exponent := ⟨65537, by decide⟩

/-- `Exponent::MAX = (1u64 << 33) - 1`, the 33-bit ceiling. -/
def MAX : Exponent := ⟨(1 <<< 33) - 1, by decide⟩

/-- A byte sequence: every element is an 8-bit value. -/
def BytesWF (input : List Nat) : Prop := ∀ b ∈ input, b < 256

instance (input : List Nat) : Decidable (BytesWF input) :=
  List.decidableBAll _ input

/-- The spec's invariants 1-3 for a live `Exponent`: nonzero (by `pos`),
odd, and within `[3, 2 ^ 33 - 1]`. -/
def valid (e : Exponent) : Prop :=
  e.val % 2 = 1 ∧ 3 ≤ e.val ∧ e.val ≤ 2 ^ 33 - 1

instance (e : Exponent) : Decidable e.valid := by
  unfold valid; infer_instance

/-- One iteration of the accumulation loop body:
`value = (value << 8) | u64::from(byte)`, with the `u64` shift wrapping
modulo `2 ^ 64`. -/
def accStep (value byte : Nat) : Nat :=
  ((value <<< 8) % 2 ^ 64) ||| byte

/-- The `loop` inside `from_be_bytes`: read a byte (end-of-input maps to
`invalid_encoding`), fold it into the accumulator, and return the value
once the reader is at the end of the input. -/
def accLoop : Nat → List Nat → Except KeyRejected Nat
  | _, [] => .error .invalid_encoding
  | value, byte :: rest =>
    if rest.isEmpty then .ok (accStep value byte)
    else accLoop (accStep value byte) rest

/-- The `read_all` closure of `from_be_bytes`: reject a leading zero byte
(`input.peek(0)`, false on empty input) and otherwise run the accumulation
loop over the whole input. -/
def readValue (input : List Nat) : Except KeyRejected Nat :=
  if input.head? = some 0 then .error .invalid_encoding
  else accLoop 0 input

/-- Lines 62-73 of `from_be_bytes`: the post-accumulation checks, in source
order — zero (`NonZeroU64::new ... ok_or_else(too_small)`), below
`min_value`, evenness (`value & 1 != 1`), above `MAX`. -/
def checkValue (value : Nat) (min_value : Exponent) : Except KeyRejected Exponent :=
  if h : value = 0 then .error .too_small
  else if value < min_value.val then .error .too_small
  else if value &&& 1 ≠ 1 then .error .invalid_component
  else if value > MAX.val then .error .too_large
  else .ok ⟨value, Nat.pos_of_ne_zero h⟩

/-- `Exponent::from_be_bytes`: the length gate, then the reading closure,
then the value checks. -/
def from_be_bytes (input : List Nat) (min_value : Exponent) :
    Except KeyRejected Exponent :=
  if input.length > 5 then .error .too_large
  else
    match readValue input with
    | .error e => .error e
    | .ok value => checkValue value min_value

end Exponent

/-- The big-endian value of a byte sequence: the mathematical (non-wrapping)
meaning of the accumulation loop. -/
def beVal (input : List Nat) : Nat :=
  input.foldl (fun a b => a * 256 + b) 0

/-- Minimal big-endian encoding, fuel-indexed so that it is structurally
recursive: peel off the low byte until the value is exhausted. -/
def minimalBEAux : Nat → Nat → List Nat
  | 0, _ => []
  | _ + 1, 0 => []
  | fuel + 1, v => minimalBEAux fuel (v / 256) ++ [v % 256]

/-- Minimal big-endian encoding of a natural number (no leading zero byte;
`minimalBE 0 = []`). Eight bytes of fuel cover every value below `2 ^ 64`. -/
def minimalBE (v : Nat) : List Nat := minimalBEAux 8 v

/-! ## Supporting lemmas -/

namespace Exponent

lemma ext_val {a b : Exponent} (h : a.val = b.val) : a = b := by
  cases a; cases b; simpa using h

lemma MAX_val : MAX.val = 2 ^ 33 - 1 := by decide

/-- Within 64-bit range, one loop iteration is exact base-256 accumulation. -/
lemma accStep_eq (a b : Nat) (hb : b < 256) (ha : a * 256 + b < 2 ^ 64) :
    accStep a b = a * 256 + b := by
  have h28 : (2 : Nat) ^ 8 = 256 := by norm_num
  have h3 : (2 : Nat) ^ 8 * a + b = 2 ^ 8 * a ||| b :=
    Nat.mul_add_lt_is_or (by omega) a
  unfold accStep
  rw [Nat.shiftLeft_eq, h28, Nat.mod_eq_of_lt (by omega : a * 256 < 2 ^ 64),
    Nat.mul_comm a 256, ← h28, ← h3, h28]

/-- The accumulation loop on a nonempty in-range input returns the base-256
left fold of its bytes. -/
lemma accLoop_ok : ∀ (bs : List Nat) (value : Nat), bs ≠ [] →
    (∀ b ∈ bs, b < 256) → (value + 1) * 256 ^ bs.length ≤ 2 ^ 64 →
    accLoop value bs = .ok (bs.foldl (fun a b => a * 256 + b) value)
  | [], _, hne, _, _ => absurd rfl hne
  | [b], value, _, hb, hv => by
    have hb' : b < 256 := hb b (List.mem_singleton.mpr rfl)
    have : value * 256 + b < 2 ^ 64 := by
      have := hv
      simp only [List.length_singleton, pow_one] at this
      omega
    simp [accLoop, accStep_eq value b hb' this]
  | b :: c :: rest, value, _, hb, hv => by
    have hb' : b < 256 := hb b (List.mem_cons_self b (c :: rest))
    have hlen : (b :: c :: rest).length = (c :: rest).length + 1 := rfl
    have hpow : (value + 1) * (256 ^ (c :: rest).length * 256) ≤ 2 ^ 64 := by
      rw [hlen, pow_succ] at hv; exact hv
    have hstep : value * 256 + b < 2 ^ 64 := by
      have h1 : 1 ≤ 256 ^ (c :: rest).length := Nat.one_le_pow _ _ (by norm_num)
      nlinarith
    have hnext : (value * 256 + b + 1) * 256 ^ (c :: rest).length ≤ 2 ^ 64 := by
      have h1 : value * 256 + b + 1 ≤ (value + 1) * 256 := by omega
      calc (value * 256 + b + 1) * 256 ^ (c :: rest).length
          ≤ (value + 1) * 256 * 256 ^ (c :: rest).length :=
            Nat.mul_le_mul_right _ h1
        _ = (value + 1) * (256 ^ (c :: rest).length * 256) := by ring
        _ ≤ 2 ^ 64 := hpow
    have ih := accLoop_ok (c :: rest) (value * 256 + b) (by simp)
      (fun x hx => hb x (List.mem_cons_of_mem b hx)) hnext
    have hunfold : accLoop value (b :: c :: rest) =
        accLoop (accStep value b) (c :: rest) := rfl
    rw [hunfold, accStep_eq value b hb' hstep, ih]
    simp only [List.foldl_cons]

/-- The reading closure on a structurally acceptable input returns the
big-endian value of the bytes. -/
lemma readValue_ok (input : List Nat) (hb : BytesWF input)
    (hlen : input.length ≤ 5) (hne : input ≠ []) (hhead : input.head? ≠ some 0) :
    readValue input = .ok (beVal input) := by
  unfold readValue beVal
  rw [if_neg hhead]
  exact accLoop_ok input 0 hne hb (by
    calc (0 + 1) * 256 ^ input.length = 256 ^ input.length := by ring
      _ ≤ 256 ^ 5 := Nat.pow_le_pow_right (by norm_num) hlen
      _ ≤ 2 ^ 64 := by norm_num)

/-- Folding more bytes never decreases the accumulator. -/
lemma foldl_le : ∀ (bs : List Nat) (value : Nat),
    value ≤ bs.foldl (fun a b => a * 256 + b) value
  | [], _ => le_refl _
  | b :: rest, value => by
    have h1 : value ≤ value * 256 + b := by nlinarith
    exact h1.trans (foldl_le rest (value * 256 + b))

/-- A nonempty input with nonzero first byte has positive big-endian value. -/
lemma beVal_pos (input : List Nat) (hne : input ≠ [])
    (hhead : input.head? ≠ some 0) : 1 ≤ beVal input := by
  match input, hne with
  | b :: rest, _ =>
    have hb : b ≠ 0 := fun h => hhead (by simp [h])
    have : beVal (b :: rest) = rest.foldl (fun a b => a * 256 + b) b := by
      simp [beVal]
    rw [this]
    exact (Nat.one_le_iff_ne_zero.mpr hb).trans (foldl_le rest b)

lemma checkValue_ok_iff (v : Nat) (m : Exponent) (e : Exponent) :
    checkValue v m = .ok e ↔
      (e.val = v ∧ v ≠ 0 ∧ m.val ≤ v ∧ v % 2 = 1 ∧ v ≤ 2 ^ 33 - 1) := by
  unfold checkValue
  rw [MAX_val]
  split_ifs with h0 h1 h2 h3
  · simp; omega
  · simp; omega
  · simp only [Nat.and_one_is_mod] at h2
    simp; omega
  · simp; omega
  · simp only [Nat.and_one_is_mod] at h2
    constructor
    · rintro h
      obtain rfl : e = ⟨v, Nat.pos_of_ne_zero h0⟩ := (Except.ok.injEq _ _).mp h.symm
      exact ⟨rfl, h0, by omega, by omega, by omega⟩
    · rintro ⟨hev, -, -, -, -⟩
      exact congrArg Except.ok (ext_val hev.symm)

lemma checkValue_too_small_iff (v : Nat) (m : Exponent) :
    checkValue v m = .error .too_small ↔ (v = 0 ∨ v < m.val) := by
  unfold checkValue
  split_ifs <;> simp_all

lemma checkValue_invalid_component_iff (v : Nat) (m : Exponent) :
    checkValue v m = .error .invalid_component ↔
      (v ≠ 0 ∧ m.val ≤ v ∧ v % 2 = 0) := by
  unfold checkValue
  split_ifs with h0 h1 h2 h3 <;> simp_all [Nat.and_one_is_mod]

lemma checkValue_too_large_iff (v : Nat) (m : Exponent) :
    checkValue v m = .error .too_large ↔
      (v ≠ 0 ∧ m.val ≤ v ∧ v % 2 = 1 ∧ 2 ^ 33 - 1 < v) := by
  unfold checkValue
  rw [MAX_val]
  split_ifs with h0 h1 h2 h3 <;> simp_all [Nat.and_one_is_mod]

/-- On a structurally acceptable input, decoding reduces to the value checks
applied to the big-endian value. -/
lemma from_be_bytes_eq_check (input : List Nat) (m : Exponent)
    (hb : BytesWF input) (hlen : input.length ≤ 5) (hne : input ≠ [])
    (hhead : input.head? ≠ some 0) :
    from_be_bytes input m = checkValue (beVal input) m := by
  unfold from_be_bytes
  rw [if_neg (by omega), readValue_ok input hb hlen hne hhead]

end Exponent

lemma div256_lt_pow {v k : Nat} (h : v < 256 ^ (k + 1)) : v / 256 < 256 ^ k := by
  rw [Nat.div_lt_iff_lt_mul (by norm_num : 0 < 256)]
  calc v < 256 ^ (k + 1) := h
    _ = 256 ^ k * 256 := by rw [pow_succ]

lemma minimalBEAux_zero (fuel : Nat) : minimalBEAux fuel 0 = [] := by
  cases fuel <;> rfl

lemma minimalBEAux_succ (fuel w : Nat) :
    minimalBEAux (fuel + 1) (w + 1)
      = minimalBEAux fuel ((w + 1) / 256) ++ [(w + 1) % 256] := rfl

/-- Every byte of a minimal big-endian encoding is below 256. -/
lemma minimalBEAux_lt : ∀ fuel v, ∀ b ∈ minimalBEAux fuel v, b < 256
  | 0, _ => by simp [minimalBEAux]
  | fuel + 1, 0 => by simp [minimalBEAux]
  | fuel + 1, w + 1 => by
    intro b hb
    rw [minimalBEAux_succ] at hb
    rcases List.mem_append.mp hb with h | h
    · exact minimalBEAux_lt fuel ((w + 1) / 256) b h
    · simp at h; omega

lemma minimalBEAux_ne_nil (fuel v : Nat) (hf : fuel ≠ 0) (hv : v ≠ 0) :
    minimalBEAux fuel v ≠ [] := by
  match fuel, v, hf, hv with
  | fuel + 1, w + 1, _, _ => rw [minimalBEAux_succ]; simp

lemma beVal_append_singleton (xs : List Nat) (d : Nat) :
    beVal (xs ++ [d]) = beVal xs * 256 + d := by
  unfold beVal
  rw [List.foldl_append]
  rfl

/-- Decoding inverts the minimal big-endian encoding. -/
lemma beVal_minimalBEAux : ∀ fuel v, v < 256 ^ fuel →
    beVal (minimalBEAux fuel v) = v
  | 0, v, hv => by
    have h1 : v = 0 := by simp [pow_zero] at hv; omega
    subst h1; simp [minimalBEAux, beVal]
  | fuel + 1, 0, _ => by simp [minimalBEAux_zero, beVal]
  | fuel + 1, w + 1, hv => by
    have ih := beVal_minimalBEAux fuel ((w + 1) / 256) (div256_lt_pow hv)
    rw [minimalBEAux_succ, beVal_append_singleton, ih]
    omega

/-- A minimal big-endian encoding of a nonzero value has no leading zero
byte. -/
lemma minimalBEAux_head : ∀ fuel v, v ≠ 0 → v < 256 ^ fuel →
    (minimalBEAux fuel v).head? ≠ some 0
  | 0, v, hv, hlt => by
    have h1 : v = 0 := by simp [pow_zero] at hlt; omega
    exact absurd h1 hv
  | fuel + 1, w + 1, _, hlt => by
    rw [minimalBEAux_succ]
    by_cases hq : (w + 1) / 256 = 0
    · have hw : w + 1 < 256 := (Nat.div_eq_zero_iff (by norm_num)).mp hq
      rw [hq, minimalBEAux_zero, List.nil_append]
      simp
      omega
    · have hlt' : (w + 1) / 256 < 256 ^ fuel := div256_lt_pow hlt
      have hfne : fuel ≠ 0 := by
        rintro rfl
        rw [pow_zero] at hlt'
        omega
      have ihh := minimalBEAux_head fuel ((w + 1) / 256) hq hlt'
      obtain ⟨x, xs', hxs⟩ :=
        List.exists_cons_of_ne_nil (minimalBEAux_ne_nil fuel _ hfne hq)
      rw [hxs] at ihh ⊢
      simpa using ihh

/-- Values below `256 ^ k` encode into at most `k` bytes. -/
lemma minimalBEAux_len : ∀ fuel k v, v < 256 ^ k →
    (minimalBEAux fuel v).length ≤ k
  | 0, _, _, _ => by simp [minimalBEAux]
  | fuel + 1, k, 0, _ => by simp [minimalBEAux_zero]
  | fuel + 1, k, w + 1, hv => by
    match k with
    | 0 => rw [pow_zero] at hv; omega
    | k + 1 =>
      have ih := minimalBEAux_len fuel k ((w + 1) / 256) (div256_lt_pow hv)
      rw [minimalBEAux_succ, List.length_append]
      simp
      omega

/-! ## Claims -/

/-- C1: every `Exponent` produced by `from_be_bytes` is nonzero, odd, within
`[3, 2 ^ 33 - 1]`, and at least `min_value`, provided `min_value` itself is
nonzero, odd, and within `[3, 2 ^ 33 - 1]`. -/
theorem C1_decode_invariants (input : List Nat) (m : Exponent) (hm : m.valid)
    (e : Exponent) (h : Exponent.from_be_bytes input m = .ok e) :
    e.val ≠ 0 ∧ e.val % 2 = 1 ∧ 3 ≤ e.val ∧ e.val ≤ 2 ^ 33 - 1 ∧
      m.val ≤ e.val := by
  unfold Exponent.from_be_bytes at h
  by_cases hlen : input.length > 5
  · rw [if_pos hlen] at h; simp at h
  · rw [if_neg hlen] at h
    cases hr : Exponent.readValue input with
    | error err => rw [hr] at h; simp at h
    | ok v =>
      rw [hr] at h
      obtain ⟨hev, h0, hmv, hodd, hmax⟩ := (Exponent.checkValue_ok_iff v m e).mp h
      obtain ⟨hmo, hm3, hmM⟩ := hm
      subst hev
      exact ⟨h0, hodd, by omega, hmax, hmv⟩

/-- C1 witness: decoding `[0x03]` with `min_value = 3`. -/
theorem C1_decode_invariants_witness :
    (⟨3, by decide⟩ : Exponent).val ≠ 0
    ∧ (⟨3, by decide⟩ : Exponent).val % 2 = 1
    ∧ 3 ≤ (⟨3, by decide⟩ : Exponent).val
    ∧ (⟨3, by decide⟩ : Exponent).val ≤ 2 ^ 33 - 1
    ∧ Exponent._3.val ≤ (⟨3, by decide⟩ : Exponent).val :=
  C1_decode_invariants [3] Exponent._3 (by decide) ⟨3, by decide⟩ (by decide)

/-- C2 counterexample: decoding the 5-byte encoding of `2 ^ 33`
(`[0x02, 0x00, 0x00, 0x00, 0x00]`) with `min_value = 3` does not fail with
too-large, contrary to the claim: the evenness check fires first. -/
theorem C2_boundary_counterexample :
    Exponent.from_be_bytes [2, 0, 0, 0, 0] Exponent._3
      ≠ .error .too_large := by decide

/-- C2 (amended): decoding `[0x01, 0xFF, 0xFF, 0xFF, 0xFF]` (`2 ^ 33 - 1`)
with `min_value = 3` succeeds with value `2 ^ 33 - 1`, and decoding
`[0x02, 0x00, 0x00, 0x00, 0x00]` (`2 ^ 33`) with `min_value = 3` fails with
invalid-component, because `2 ^ 33` is even and the evenness check precedes
the ceiling check. -/
theorem C2_boundary :
    Exponent.from_be_bytes [1, 255, 255, 255, 255] Exponent._3
        = .ok ⟨2 ^ 33 - 1, by decide⟩
    ∧ Exponent.from_be_bytes [2, 0, 0, 0, 0] Exponent._3
        = .error .invalid_component := by decide

/-- C3: the post-accumulation checks classify in source order — a zero value
reports too-small, too-small holds exactly below `min_value`,
invalid-component holds exactly for even values at or above `min_value`,
too-large holds exactly for odd values at or above `min_value` that exceed
`2 ^ 33 - 1`; in particular a value both even and above the ceiling is
reported invalid-component, not too-large. -/
theorem C3_check_order (v : Nat) (m : Exponent) (hm : m.valid) :
    (v = 0 → Exponent.checkValue v m = .error .too_small)
    ∧ (Exponent.checkValue v m = .error .too_small ↔ v < m.val)
    ∧ (Exponent.checkValue v m = .error .invalid_component ↔
        (m.val ≤ v ∧ v % 2 = 0))
    ∧ (Exponent.checkValue v m = .error .too_large ↔
        (m.val ≤ v ∧ v % 2 = 1 ∧ 2 ^ 33 - 1 < v))
    ∧ (v % 2 = 0 → 2 ^ 33 - 1 < v →
        Exponent.checkValue v m = .error .invalid_component) := by
  obtain ⟨hmo, hm3, hmM⟩ := hm
  refine ⟨?_, ?_, ?_, ?_, ?_⟩
  · rintro rfl
    exact (Exponent.checkValue_too_small_iff 0 m).mpr (Or.inl rfl)
  · rw [Exponent.checkValue_too_small_iff]; omega
  · rw [Exponent.checkValue_invalid_component_iff]
    constructor
    · rintro ⟨h0, h1, h2⟩; exact ⟨h1, h2⟩
    · rintro ⟨h1, h2⟩; exact ⟨by omega, h1, h2⟩
  · rw [Exponent.checkValue_too_large_iff]
    constructor
    · rintro ⟨h0, h1, h2, h3⟩; exact ⟨h1, h2, h3⟩
    · rintro ⟨h1, h2, h3⟩; exact ⟨by omega, h1, h2, h3⟩
  · intro he hM
    exact (Exponent.checkValue_invalid_component_iff v m).mpr
      ⟨by omega, by omega, he⟩

/-- C3 witness: `2 ^ 33` is even and above the ceiling, and is classified
invalid-component. -/
theorem C3_check_order_witness :
    Exponent.checkValue 8589934592 Exponent._3 = .error .invalid_component :=
  (C3_check_order 8589934592 Exponent._3 (by decide)).2.2.2.2
    (by decide) (by decide)

/-- C4: any input longer than 5 bytes is rejected as too-large, regardless of
content. -/
theorem C4_long_input (input : List Nat) (hb : Exponent.BytesWF input)
    (m : Exponent) (hm : m.valid) (hlen : 5 < input.length) :
    Exponent.from_be_bytes input m = .error .too_large := by
  unfold Exponent.from_be_bytes
  rw [if_pos hlen]

/-- C4 witness: a 6-byte input with `min_value = 3`. -/
theorem C4_long_input_witness :
    Exponent.from_be_bytes [0, 0, 0, 0, 0, 0] Exponent._3
      = .error .too_large :=
  C4_long_input [0, 0, 0, 0, 0, 0] (by decide) Exponent._3 (by decide)
    (by decide)

/-- C5: any nonempty input of at most 5 bytes whose first byte is `0x00` is
rejected as invalid-encoding. -/
theorem C5_leading_zero (input : List Nat) (hb : Exponent.BytesWF input)
    (m : Exponent) (hm : m.valid) (hlen : input.length ≤ 5)
    (hhead : input.head? = some 0) :
    Exponent.from_be_bytes input m = .error .invalid_encoding := by
  unfold Exponent.from_be_bytes Exponent.readValue
  rw [if_neg (by omega : ¬ input.length > 5), if_pos hhead]

/-- C5 witness: input `[0x00, 0x01]` with `min_value = 3`. -/
theorem C5_leading_zero_witness :
    Exponent.from_be_bytes [0, 1] Exponent._3 = .error .invalid_encoding :=
  C5_leading_zero [0, 1] (by decide) Exponent._3 (by decide) (by decide) rfl

/-- C6: round-trip — every valid exponent value whose minimal big-endian
encoding is at most 5 bytes decodes from that encoding, under any valid
`min_value` at most the value, back to itself. -/
theorem C6_roundtrip (v : Nat) (hodd : v % 2 = 1) (h3 : 3 ≤ v)
    (hmax : v ≤ 2 ^ 33 - 1) (hlen : (minimalBE v).length ≤ 5)
    (m : Exponent) (hm : m.valid) (hmv : m.val ≤ v) :
    ∃ e : Exponent,
      Exponent.from_be_bytes (minimalBE v) m = .ok e ∧ e.val = v := by
  have h2 : (256 : Nat) ^ 8 = 2 ^ 64 := by norm_num
  have hv8 : v < 256 ^ 8 := by rw [h2]; omega
  have hne : minimalBE v ≠ [] := minimalBEAux_ne_nil 8 v (by norm_num) (by omega)
  have hwf : Exponent.BytesWF (minimalBE v) := minimalBEAux_lt 8 v
  have hhead : (minimalBE v).head? ≠ some 0 :=
    minimalBEAux_head 8 v (by omega) hv8
  have hbe : beVal (minimalBE v) = v := beVal_minimalBEAux 8 v hv8
  have heq := Exponent.from_be_bytes_eq_check (minimalBE v) m hwf hlen hne hhead
  refine ⟨⟨v, by omega⟩, ?_, rfl⟩
  rw [heq, hbe]
  exact (Exponent.checkValue_ok_iff v m ⟨v, by omega⟩).mpr
    ⟨rfl, by omega, hmv, hodd, hmax⟩

/-- C6 witness: the minimal encoding of 65537 decodes back to 65537 under
`min_value = 3`. -/
theorem C6_roundtrip_witness :
    ∃ e : Exponent,
      Exponent.from_be_bytes (minimalBE 65537) Exponent._3 = .ok e
      ∧ e.val = 65537 :=
  C6_roundtrip 65537 (by decide) (by decide) (by decide) (by decide)
    Exponent._3 (by decide) (by decide)

/-- C7: monotonicity in the minimum-value policy — if decoding succeeds under
`m1`, it succeeds with the same value under any valid `m2 ≤ m1`. -/
theorem C7_monotone (input : List Nat) (m1 m2 : Exponent)
    (hm1 : m1.valid) (hm2 : m2.valid) (h21 : m2.val ≤ m1.val)
    (e : Exponent) (h : Exponent.from_be_bytes input m1 = .ok e) :
    Exponent.from_be_bytes input m2 = .ok e := by
  unfold Exponent.from_be_bytes at h ⊢
  by_cases hlen : input.length > 5
  · rw [if_pos hlen] at h; simp at h
  · rw [if_neg hlen] at h
    rw [if_neg hlen]
    cases hr : Exponent.readValue input with
    | error err => rw [hr] at h; simp at h
    | ok v =>
      rw [hr] at h
      obtain ⟨hev, h0, hmv, hodd, hmax⟩ :=
        (Exponent.checkValue_ok_iff v m1 e).mp h
      exact (Exponent.checkValue_ok_iff v m2 e).mpr
        ⟨hev, h0, by omega, hodd, hmax⟩

/-- C7 witness: `[0x01, 0x00, 0x01]` decodes to 65537 under the floor 65537,
hence also under the floor 3. -/
theorem C7_monotone_witness :
    Exponent.from_be_bytes [1, 0, 1] Exponent._3 = .ok ⟨65537, by decide⟩ :=
  C7_monotone [1, 0, 1] Exponent._65537 Exponent._3 (by decide) (by decide)
    (by decide) ⟨65537, by decide⟩ (by decide)

/-- C8: the three named constants 3, 65537 and `MAX = 2 ^ 33 - 1` are each
odd and within `[3, 2 ^ 33 - 1]`. -/
theorem C8_constants :
    Exponent._3.valid ∧ Exponent._65537.valid ∧ Exponent.MAX.valid := by
  decide

/-- C9: the empty input is rejected as invalid-encoding (the first byte read
hits end-of-input, which maps to invalid-encoding). -/
theorem C9_empty_input (m : Exponent) (hm : m.valid) :
    Exponent.from_be_bytes [] m = .error .invalid_encoding := rfl

/-- C9 witness: the empty input under `min_value = 65537`. -/
theorem C9_empty_input_witness :
    Exponent.from_be_bytes [] Exponent._65537 = .error .invalid_encoding :=
  C9_empty_input Exponent._65537 (by decide)

/-- C10: any input passing the length and leading-zero-byte gates accumulates
to a value of at least 1, so the zero branch of the checks is unreachable,
and too-small is reported exactly when `0 <` decoded value `< min_value`. -/
theorem C10_zero_unreachable (input : List Nat) (hb : Exponent.BytesWF input)
    (m : Exponent) (hm : m.valid) :
    (input.length ≤ 5 → input ≠ [] → input.head? ≠ some 0 →
      Exponent.readValue input = .ok (beVal input) ∧ 1 ≤ beVal input)
    ∧ (Exponent.from_be_bytes input m = .error .too_small ↔
      (input.length ≤ 5 ∧ input ≠ [] ∧ input.head? ≠ some 0
        ∧ 0 < beVal input ∧ beVal input < m.val)) := by
  obtain ⟨hmo, hm3, hmM⟩ := hm
  constructor
  · intro hlen hne hhead
    exact ⟨Exponent.readValue_ok input hb hlen hne hhead,
      Exponent.beVal_pos input hne hhead⟩
  · constructor
    · intro h
      unfold Exponent.from_be_bytes at h
      by_cases hlen : input.length > 5
      · rw [if_pos hlen] at h; simp at h
      · rw [if_neg hlen] at h
        by_cases hhead : input.head? = some 0
        · unfold Exponent.readValue at h
          rw [if_pos hhead] at h
          simp at h
        · cases hinput : input with
          | nil => rw [hinput] at h; simp [Exponent.readValue, Exponent.accLoop] at h
          | cons b rest =>
            rw [hinput] at h hb hlen hhead
            have hne : (b :: rest) ≠ [] := by simp
            have hrv := Exponent.readValue_ok (b :: rest) hb (by omega)
              hne hhead
            rw [hrv] at h
            have hpos := Exponent.beVal_pos (b :: rest) hne hhead
            have hts :=
              (Exponent.checkValue_too_small_iff (beVal (b :: rest)) m).mp h
            exact ⟨by omega, hne, hhead, by omega, by omega⟩
    · rintro ⟨hlen, hne, hhead, hpos, hlt⟩
      have hrv := Exponent.readValue_ok input hb hlen hne hhead
      unfold Exponent.from_be_bytes
      rw [if_neg (by omega), hrv]
      exact (Exponent.checkValue_too_small_iff _ m).mpr (Or.inr hlt)

/-- C10 witness: input `[0x01]` under `min_value = 65537` — too-small holds
exactly because `0 < 1 < 65537`. -/
theorem C10_zero_unreachable_witness :
    Exponent.from_be_bytes [1] Exponent._65537 = .error .too_small ↔
      (([1] : List Nat).length ≤ 5 ∧ ([1] : List Nat) ≠ []
        ∧ ([1] : List Nat).head? ≠ some 0
        ∧ 0 < beVal [1] ∧ beVal [1] < Exponent._65537.val) :=
  (C10_zero_unreachable [1] (by decide) Exponent._65537 (by decide)).2
